import Mathlib

/-!
Verification of the spart aggregation pipeline (src/app.rs, src/bars.rs,
src/settings.rs, src/sort.rs) against its natural-language specification.

Shallow embedding conventions:
- Rust machine integers are embedded as `Int` (i64) and `Nat` (u64/usize); the
  embedded code only compares them, never overflows.
- Rust `f64` values flow through this pipeline only as opaque ordered payloads
  (they are compared, never computed with); the payload is embedded as `Rat`,
  whose total order stands in for the `OrderedFloat` total order used by the
  source. No claim touches NaN or float arithmetic.
- A function that can panic (`unreachable!`, `todo!`, indexing a map with a
  missing key) is embedded as returning `Option`, with `none` for the panic.
- `merde::Map` (a record) is embedded as an association list; lookups take the
  first binding, matching a hash map that holds one binding per key.
- Composite values (`merde::Value::Array`/`Value::Map`) carry a `Nat` tag in
  place of their contents: the embedded code only ever inspects their type tag
  and compares them for equality, never looks inside them.
-/

/-- Embedding of the scalar part of `merde::Value` (plus tagged composites). -/
inductive Value where
  | null
  | bool (b : Bool)
  | i64 (n : Int)
  | u64 (n : Nat)
  | float (x : Rat)
  | str (s : String)
  | bytes (bs : List Nat)
  | arr (tag : Nat)
  | map (tag : Nat)
deriving DecidableEq

/-- Embedding of `merde::ValueType`. -/
inductive ValueType where
  | Null
  | Bool
  | I64
  | U64
  | Float
  | String
  | Bytes
  | Map
  | Array
deriving DecidableEq

/-- Embedding of `merde::Value::value_type`. -/
def Value.valueType : Value → ValueType
  | .null => .Null
  | .bool _ => .Bool
  | .i64 _ => .I64
  | .u64 _ => .U64
  | .float _ => .Float
  | .str _ => .String
  | .bytes _ => .Bytes
  | .arr _ => .Array
  | .map _ => .Map

/-- A record: embedding of `merde::Map`, one row of the table. -/
abbrev Rec := List (String × Value)

/-- Embedding of `merde::Map` lookup (`get` returns `Option`, `Index` panics on
`none`). Takes the first binding for the key. -/
def getField : Rec → String → Option Value
  | [], _ => none
  | (k, v) :: rest, key => if k = key then some v else getField rest key

/-- Embedding of `settings::Inclusion`. -/
inductive Inclusion where
  | Include
  | Exclude
deriving DecidableEq

/-- Embedding of `settings::Bound<T>`; the `Range` constructor inlines the two
fields of `std::ops::Range` (called `start` and `end` in the source). -/
inductive Bound (α : Type) where
  | Range (start stop : α)
  | Specifics (inclusion : Inclusion) (values : List α)
deriving DecidableEq

/-- Embedding of `Bound::excludes` (src/settings.rs lines 45-60).
`Range` uses `std::ops::Range::contains`, which is `start <= v && v < end`. -/
def Bound.excludes [LinearOrder α] : Bound α → α → Bool
  | .Range start stop, v => !(decide (start ≤ v) && decide (v < stop))
  | .Specifics .Exclude values, v => decide (v ∈ values)
  | .Specifics .Include values, v => !(decide (v ∈ values))

/-- Alias so the `Bool` payload type stays visible next to the `ValueBound.Bool`
constructor of the same name. -/
abbrev BoolVal := Bool

/-- Embedding of `settings::ValueBound`. -/
inductive ValueBound where
  | I64 (b : Bound Int)
  | U64 (b : Bound Nat)
  | F64 (b : Bound Rat)
  | Str (inclusion : Inclusion) (values : List String)
  | Bool (b : BoolVal)
deriving DecidableEq

/-- Embedding of `settings::YAxisKey`. -/
inductive YAxisKey where
  | Count
  | Key (k : String)
deriving DecidableEq

/-- Embedding of `settings::Settings`. The bounds hash map is an association
list (one binding per key); `x_axis` is the ordered group-key list. -/
structure Settings where
  bounds : List (String × ValueBound)
  x_axis : List String
  y_axis : YAxisKey
  max_shown : Nat
deriving DecidableEq

/-- Embedding of `Settings::default` (`max_shown` is `usize::MAX` on the
64-bit targets the source builds for). -/
def Settings.default : Settings :=
  { bounds := [], x_axis := [], y_axis := .Count, max_shown := 2 ^ 64 - 1 }

/-- Embedding of the three fields of `egui_plot::Bar` this pipeline writes:
`argument` (the x position, always an index), `value` (always an integer
count) and `name` (the label). Both `f64` fields only ever hold the small
integers assigned here, so they are embedded as `Nat`. -/
structure Bar where
  argument : Nat
  value : Nat
  name : String
deriving DecidableEq

/-- Three-way comparison on a linear order, embedding `Ord::cmp` for the payload
types of `Value` (their Rust `Ord` instances are the usual total orders; Rust
string comparison is byte-lexicographic, which on valid UTF-8 agrees with the
codepoint order underlying the Lean `String` order). -/
def cmpv [LinearOrder α] (a b : α) : Ordering :=
  if a < b then .lt else if a = b then .eq else .gt

/-- Lexicographic comparison of byte sequences, embedding `Ord` on `&[u8]`
(shorter strict prefix compares less). -/
def listCompare : List Nat → List Nat → Ordering
  | [], [] => .eq
  | [], _ :: _ => .lt
  | _ :: _, [] => .gt
  | a :: as_, b :: bs =>
    match cmpv a b with
    | .eq => listCompare as_ bs
    | o => o

/-- Lexicographic comparison of codepoint sequences. -/
def cmpChars : List Char → List Char → Ordering
  | [], [] => .eq
  | [], _ :: _ => .lt
  | _ :: _, [] => .gt
  | a :: as_, b :: bs =>
    match cmpv a.toNat b.toNat with
    | .eq => cmpChars as_ bs
    | o => o

/-- String comparison, embedding `Ord` on `&str`: the source order is
byte-lexicographic over UTF-8, which coincides with the codepoint
lexicographic order used here. -/
def cmpString (a b : String) : Ordering :=
  cmpChars a.data b.data

/-- Outcome of one key of the record comparator in `sort_arr`: return an
ordering from the whole closure, fall through to the next key, or panic. -/
inductive CmpRes where
  | ret (o : Ordering)
  | next
  | panic
deriving DecidableEq

/-- Embedding of the per-key body of the comparator closure in `sort_arr`
(src/sort.rs lines 23-34): typed pairs compare with `Ord::cmp` and fall
through when equal; a pair of two `Null`s returns `Equal` for the whole
comparison; `Null` against anything else returns `Less`/`Greater`; a pair of
differing non-`Null` types hits `unreachable!`. -/
def cmpStep : Value → Value → CmpRes
  | .i64 a, .i64 b => match cmpv a b with | .eq => .next | o => .ret o
  | .u64 a, .u64 b => match cmpv a b with | .eq => .next | o => .ret o
  | .float a, .float b => match cmpv a b with | .eq => .next | o => .ret o
  | .str a, .str b => match cmpString a b with | .eq => .next | o => .ret o
  | .bool a, .bool b => match cmpv a b with | .eq => .next | o => .ret o
  | .bytes a, .bytes b => match listCompare a b with | .eq => .next | o => .ret o
  | .null, .null => .ret .eq
  | .null, _ => .ret .lt
  | _, .null => .ret .gt
  | _, _ => .panic

/-- Embedding of the whole comparator closure of `sort_arr` (src/sort.rs):
iterate the group keys in order, index both records (panic when a key is
missing), run the per-key body, and report `Equal` when the keys run out. -/
def cmp_records (keys : List String) (a b : Rec) : Option Ordering :=
  match keys with
  | [] => some .eq
  | k :: rest =>
    match getField a k, getField b k with
    | some va, some vb =>
      match cmpStep va vb with
      | .ret o => some o
      | .next => cmp_records rest a b
      | .panic => none
    | _, _ => none

/-- Embedding of `sort_arr` (src/sort.rs lines 7-39). `sort_unstable_by` only
panics when the comparator panics on a pair it actually compares; this
embedding over-approximates and panics when any pair of rows is incomparable.
Among the outcomes the unstable sort leaves open for tied rows it picks the
stable insertion-sort one; no claim depends on the tie order. -/
def sort_arr (data : List Rec) (settings : Settings) : Option (List Rec) :=
  if data.all fun a => data.all fun b => (cmp_records settings.x_axis a b).isSome then
    some (data.insertionSort fun a b => cmp_records settings.x_axis a b ≠ some .gt)
  else
    none

/-- Embedding of the per-(field value, bound) match inside the filter closure of
`make_bars` (src/bars.rs lines 28-44): exact type pairings evaluate the bound,
a `Bool` bound excludes on mismatch, a `Str` bound is a membership test, a
`Bytes` value is never excluded by any bound, a `Null` value is excluded by
any bound, and every other pairing hits `unreachable!` (`none`). -/
def bound_check : Value → ValueBound → Option Bool
  | .i64 v, .I64 b => some (b.excludes v)
  | .u64 v, .U64 b => some (b.excludes v)
  | .float v, .F64 b => some (b.excludes v)
  | .bool v, .Bool b => some (v != b)
  | .str v, .Str inclusion values =>
    some (match inclusion with
      | .Include => !(decide (v ∈ values))
      | .Exclude => decide (v ∈ values))
  | .bytes _, _ => some false
  | .null, _ => some true
  | _, _ => none

/-- Embedding of the row filter closure of `make_bars` (src/bars.rs lines
18-47): iterate the configured bounds, skip bounds whose field the row does
not contain, and short-circuit on the first exclusion (`Iterator::any`), so a
later `unreachable!` pairing is only hit when no earlier bound excluded. -/
def row_excluded (bounds : List (String × ValueBound)) (r : Rec) : Option Bool :=
  match bounds with
  | [] => some false
  | (k, b) :: rest =>
    match getField r k with
    | none => row_excluded rest r
    | some v =>
      match bound_check v b with
      | none => none
      | some true => some true
      | some false => row_excluded rest r

/-- The filtering pass of `make_bars`: keep the rows the closure does not
exclude, propagating a panic. -/
def filter_rows (bounds : List (String × ValueBound)) : List Rec → Option (List Rec)
  | [] => some []
  | r :: rest =>
    match row_excluded bounds r with
    | none => none
    | some true => filter_rows bounds rest
    | some false => (filter_rows bounds rest).map (r :: ·)

/-- Embedding of the run-membership test in `make_bars` (src/bars.rs lines
59-63): the next row extends the current run when its value equals the run
starter value on every group key. A missing key makes the test fail here; the
source panics on it either here or, at the latest, when that row becomes a run
starter, and the embedding surfaces that panic at the run-starter step. -/
def matches_row (keys : List String) (vals : List Value) (r : Rec) : Bool :=
  (keys.zip vals).all fun p => getField r p.1 == some p.2

/-- The `old_vals` read of `make_bars` (src/bars.rs lines 51-55): the row
values at each group key in group-key order; indexing panics on a missing key.
-/
def key_values (keys : List String) (r : Rec) : Option (List Value) :=
  match keys with
  | [] => some []
  | k :: ks =>
    match getField r k, key_values ks r with
    | some v, some vs => some (v :: vs)
    | _, _ => none

/-- The grouping loop of `make_bars` (src/bars.rs lines 49-82) while a run
with key values `vals` and `count` rows so far is open: a matching row extends
the run; a non-matching row closes it, reads its own group-key values
(indexing panics on a missing key) and starts the next run; the end of the
input closes the last run. -/
def group_runs_aux (keys : List String) (vals : List Value) (count : Nat) :
    List Rec → Option (List (List Value × Nat))
  | [] => some [(vals, count)]
  | r :: rest =>
    if matches_row keys vals r then
      group_runs_aux keys vals (count + 1) rest
    else
      match key_values keys r with
      | none => none
      | some vals2 => (group_runs_aux keys vals2 1 rest).map ((vals, count) :: ·)

/-- The outer grouping loop of `make_bars`: no groups for no rows, otherwise
open a run at the first row and scan the rest. -/
def group_runs (keys : List String) : List Rec → Option (List (List Value × Nat))
  | [] => some []
  | r :: rest =>
    match key_values keys r with
    | none => none
    | some vals => group_runs_aux keys vals 1 rest

/-- Modelled from the spec: the canonical string form of a value, used for bar
labels (spec section 4.4). The source renders each group-key value with the
`Debug` formatter of the external `merde` crate, whose implementation is not
part of this repository; this definition follows the words of the spec and its
end-to-end example, where a string value renders as its contents. -/
def canonical_string : Value → String
  | .null => "null"
  | .bool b => if b then "true" else "false"
  | .i64 n => toString n
  | .u64 n => toString n
  | .float x => toString x
  | .str s => s
  | .bytes _ => "bytes"
  | .arr _ => "array"
  | .map _ => "map"

/-- The label of one bar (src/bars.rs lines 74-80): the group-key values
rendered and joined with commas, in group-key order. -/
def bar_label (vals : List Value) : String :=
  String.intercalate "," (vals.map canonical_string)

/-- The `bars.push(...)` step of `make_bars`: one bar per group, with
`argument` the index the bar was pushed at (`bars.len()`), `value` the run
count and `name` the label. -/
def mk_count_bars (runs : List (List Value × Nat)) : List Bar :=
  runs.enum.map fun p => { argument := p.1, value := p.2.2, name := bar_label p.2.1 }

/-- The ranking tail of `make_bars` (src/bars.rs lines 88-97): sort ascending
by count, reverse, and overwrite each `argument` with the position in that
descending order. The source sort is unstable; the embedding picks the stable
outcome among the permitted ones, and no claim depends on the tie order. -/
def rank_bars (bars : List Bar) : List Bar :=
  ((bars.insertionSort fun a b => a.value ≤ b.value).reverse.enum.map
    fun p => { p.2 with argument := p.1 })

/-- Embedding of `make_bars` (src/bars.rs lines 9-98): empty group-key list
short-circuits to no bars; `YAxisKey::Key` hits `todo!()` (a panic, `none`);
`Count` filters, groups consecutive runs and ranks. -/
def make_bars (data : List Rec) (settings : Settings) : Option (List Bar) :=
  if settings.x_axis = [] then
    some []
  else
    match settings.y_axis with
    | .Key _ => none
    | .Count =>
      match filter_rows settings.bounds data with
      | none => none
      | some filtered =>
        match group_runs settings.x_axis filtered with
        | none => none
        | some runs => some (rank_bars (mk_count_bars runs))

/-- Embedding of `app::AppCreationErr`. -/
inductive AppCreationErr where
  | NoData
  | DifferentTypes (key : String) (expected found : ValueType)
  | NestedTypes (t : ValueType)
deriving DecidableEq

/-- Embedding of the match on one `(first value type, later value type)` pair
in `App::new` (src/app.rs lines 60-78), with the source arm order: composite
on either side errors (naming the first record type when that one is
composite), a `Null` on either side passes, differing types error, equal types
pass. -/
def check_types (key : String) (ft vt : ValueType) : Option AppCreationErr :=
  if ft = .Map ∨ ft = .Array then some (.NestedTypes ft)
  else if vt = .Map ∨ vt = .Array then some (.NestedTypes vt)
  else if ft = .Null ∨ vt = .Null then none
  else if ft ≠ vt then some (.DifferentTypes key ft vt)
  else none

/-- The inner loop of `App::new` over the fields of one later record: look the
key up in the first record (`first[key]` panics on a missing key, `none`) and
check the type pair, stopping at the first error. -/
def validate_map (first : Rec) : Rec → Option (Option AppCreationErr)
  | [] => some none
  | (k, v) :: rest =>
    match getField first k with
    | none => none
    | some fv =>
      match check_types k fv.valueType v.valueType with
      | some e => some (some e)
      | none => validate_map first rest

/-- The outer loop of `App::new` over `data.iter().skip(1)`. -/
def validate_rest (first : Rec) : List Rec → Option (Option AppCreationErr)
  | [] => some none
  | m :: ms =>
    match validate_map first m with
    | none => none
    | some (some e) => some (some e)
    | some none => validate_rest first ms

/-- Embedding of `app::App` (the fields the pipeline reads and writes). -/
structure App where
  data : List Rec
  keys : List (String × ValueType)
  settings : Settings
  bars : List Bar
deriving DecidableEq

/-- Embedding of `App::new` (src/app.rs lines 53-98): error on empty data,
validate every record after the first against the first, then return the first
record field list with observed types, sorted by field name. -/
def App.new (data : List Rec) : Option (Except AppCreationErr App) :=
  match data with
  | [] => some (Except.error .NoData)
  | first :: rest =>
    match validate_rest first rest with
    | none => none
    | some (some e) => some (Except.error e)
    | some none =>
      some (Except.ok
        { data := first :: rest
          keys := (first.map fun p => (p.1, p.2.valueType)).insertionSort
            fun a b => cmpString a.1 b.1 ≠ .gt
          settings := Settings.default
          bars := [] })

/-- Embedding of `App::rebuild_bars` (src/app.rs lines 122-134): remember
whether the bar list was empty, sort the data in place, rebuild the bars, and
when the old list was empty set `max_shown` to the new bar count. Returns the
new (bars, data, settings) triple; `none` is a panic in the sort or the
aggregation. -/
def rebuild_bars (bars : List Bar) (data : List Rec) (settings : Settings) :
    Option (List Bar × List Rec × Settings) :=
  match sort_arr data settings with
  | none => none
  | some data2 =>
    match make_bars data2 settings with
    | none => none
    | some bars2 =>
      some (bars2, data2,
        if bars.isEmpty then { settings with max_shown := bars2.length } else settings)

/-- The per-key value ordering in the words of the spec (section 4.3): Null
below any non-Null, Null equal to Null, numerics numerically, strings by byte
order, byte sequences lexicographically, booleans with false below true;
comparing differing non-Null types is undefined (`none`). -/
def specValueOrder : Value → Value → Option Ordering
  | .null, .null => some .eq
  | .null, _ => some .lt
  | _, .null => some .gt
  | .i64 a, .i64 b => some (cmpv a b)
  | .u64 a, .u64 b => some (cmpv a b)
  | .float a, .float b => some (cmpv a b)
  | .str a, .str b => some (cmpString a b)
  | .bool a, .bool b => some (cmpv a b)
  | .bytes a, .bytes b => some (listCompare a b)
  | _, _ => none

/-- Per-key outcome as claim C1 states it: stop at the first non-equal field,
fall through on any equal field (a Null pair included). -/
def claimStep (va vb : Value) : CmpRes :=
  match specValueOrder va vb with
  | some .eq => .next
  | some o => .ret o
  | none => .panic

/-- Per-key outcome under the amended claim: as `claimStep`, except that a key
where both values are Null stops immediately and declares the records tied. -/
def amendedStep (va vb : Value) : CmpRes :=
  if va = .null ∧ vb = .null then .ret .eq else claimStep va vb

/-- The multi-key comparison exactly as claim C1 states it. -/
def cmp_records_claim (keys : List String) (a b : Rec) : Option Ordering :=
  match keys with
  | [] => some .eq
  | k :: rest =>
    match getField a k, getField b k with
    | some va, some vb =>
      match claimStep va vb with
      | .ret o => some o
      | .next => cmp_records_claim rest a b
      | .panic => none
    | _, _ => none

/-- The multi-key comparison under the amended claim. -/
def cmp_records_amended (keys : List String) (a b : Rec) : Option Ordering :=
  match keys with
  | [] => some .eq
  | k :: rest =>
    match getField a k, getField b k with
    | some va, some vb =>
      match amendedStep va vb with
      | .ret o => some o
      | .next => cmp_records_amended rest a b
      | .panic => none
    | _, _ => none

theorem step_agree (va vb : Value) : cmpStep va vb = amendedStep va vb := by
  cases va <;> cases vb <;>
    simp only [cmpStep, amendedStep, claimStep, specValueOrder] <;>
    first
    | rfl
    | (rename_i x y
       first
       | (cases h : listCompare x y <;>
          simp [cmpStep, amendedStep, claimStep, specValueOrder, h])
       | (cases h : cmpString x y <;>
          simp [cmpStep, amendedStep, claimStep, specValueOrder, h])
       | (cases h : cmpv x y <;>
          simp [cmpStep, amendedStep, claimStep, specValueOrder, h]))

/-- C1 counterexample: for records that agree with Null on the first group key
and differ on the second, the source comparator stops at the Null pair and
declares the records tied, while the comparison described by the claim
continues and returns Less. -/
theorem sort_comparator_null_counterexample :
    cmp_records ["k1", "k2"]
        [("k1", Value.null), ("k2", Value.i64 1)]
        [("k1", Value.null), ("k2", Value.i64 2)] = some Ordering.eq ∧
      cmp_records_claim ["k1", "k2"]
        [("k1", Value.null), ("k2", Value.i64 1)]
        [("k1", Value.null), ("k2", Value.i64 2)] = some Ordering.lt ∧
      Ordering.eq ≠ Ordering.lt := by
  refine ⟨by decide, by decide, by decide⟩

/-- C1 (amended): the multi-key comparator iterates the group keys in order,
compares the two records per key (Null below any non-Null, numerics
numerically, strings by byte order, byte sequences lexicographically, false
below true), stops with the result at the first non-equal field and is tied
when every key compares equal — except that a key where both values are Null
stops immediately and declares the records tied without examining the
remaining keys. -/
theorem sort_comparator_amended (keys : List String) (a b : Rec) :
    cmp_records keys a b = cmp_records_amended keys a b := by
  induction keys with
  | nil => rfl
  | cons k rest ih =>
    simp only [cmp_records, cmp_records_amended]
    cases getField a k <;> cases getField b k <;> try rfl
    rename_i va vb
    simp only [step_agree va vb]
    cases h : amendedStep va vb <;> simp [h, ih]

/-- C2 counterexample: a single-record table whose only value is a composite
Map passes validation with Ok instead of failing with the nested-value error —
the nested check is not unconditional. -/
theorem nested_single_record_counterexample :
    App.new [[("a", Value.map 0)]] =
      some (Except.ok
        { data := [[("a", Value.map 0)]]
          keys := [("a", ValueType.Map)]
          settings := Settings.default
          bars := [] }) := rfl

theorem check_types_nested {k : String} {ft vt t : ValueType}
    (h : check_types k ft vt = some (.NestedTypes t)) :
    (ft = .Map ∨ ft = .Array) ∨ (vt = .Map ∨ vt = .Array) := by
  unfold check_types at h
  split_ifs at h with h1 h2 h3 h4
  · exact Or.inl h1
  · exact Or.inr h2
  all_goals simp at h

theorem validate_map_nested (first : Rec) :
    ∀ m : Rec, ∀ t : ValueType,
      validate_map first m = some (some (.NestedTypes t)) →
      ∃ p ∈ m, ∃ fv, getField first p.1 = some fv ∧
        ((fv.valueType = .Map ∨ fv.valueType = .Array) ∨
          (p.2.valueType = .Map ∨ p.2.valueType = .Array)) := by
  intro m t
  induction m with
  | nil =>
    intro h
    simp [validate_map] at h
  | cons p rest ih =>
    intro h
    obtain ⟨k, v⟩ := p
    cases hg : getField first k with
    | none => simp [validate_map, hg] at h
    | some fv =>
      cases hc : check_types k fv.valueType v.valueType with
      | some e =>
        simp only [validate_map, hg, hc] at h
        have he : e = .NestedTypes t := by simpa using h
        subst he
        exact ⟨(k, v), List.mem_cons_self _ _, fv, hg, check_types_nested hc⟩
      | none =>
        simp only [validate_map, hg, hc] at h
        obtain ⟨p2, hp2, rest2⟩ := ih h
        exact ⟨p2, List.mem_cons_of_mem _ hp2, rest2⟩

theorem validate_rest_nested (first : Rec) :
    ∀ rs : List Rec, ∀ t : ValueType,
      validate_rest first rs = some (some (.NestedTypes t)) →
      ∃ r ∈ rs, validate_map first r = some (some (.NestedTypes t)) := by
  intro rs t
  induction rs with
  | nil =>
    intro h
    simp [validate_rest] at h
  | cons m ms ih =>
    intro h
    cases hm : validate_map first m with
    | none => simp [validate_rest, hm] at h
    | some o =>
      cases o with
      | some e =>
        simp only [validate_rest, hm] at h
        have he : e = .NestedTypes t := by simpa using h
        subst he
        exact ⟨m, List.mem_cons_self _ _, hm⟩
      | none =>
        simp only [validate_rest, hm] at h
        obtain ⟨r, hr, hh⟩ := ih h
        exact ⟨r, List.mem_cons_of_mem _ hr, hh⟩

/-- C2 (amended): the nested-composite check is not unconditional: a
single-record table always passes validation whatever its values contain, and
a nested-value error is only ever produced while checking a record after the
first, at a key that record contains and that the first record also contains,
with the first record value or the later record value of composite type — so
composites elsewhere (anywhere in a single-record table, or in the first
record under keys no later record has) are never detected. -/
theorem nested_check_characterization :
    (∀ m : Rec, App.new [m] =
      some (Except.ok
        { data := [m]
          keys := (m.map fun p => (p.1, p.2.valueType)).insertionSort
            fun a b => cmpString a.1 b.1 ≠ .gt
          settings := Settings.default
          bars := [] })) ∧
      ∀ (data : List Rec) (t : ValueType),
        App.new data = some (Except.error (.NestedTypes t)) →
        ∃ first rest, data = first :: rest ∧
          ∃ r ∈ rest, ∃ p ∈ r, ∃ fv, getField first p.1 = some fv ∧
            ((fv.valueType = .Map ∨ fv.valueType = .Array) ∨
              (p.2.valueType = .Map ∨ p.2.valueType = .Array)) := by
  constructor
  · intro m
    rfl
  · intro data t h
    cases data with
    | nil => simp [App.new] at h
    | cons first rest =>
      refine ⟨first, rest, rfl, ?_⟩
      cases hv : validate_rest first rest with
      | none => simp [App.new, hv] at h
      | some o =>
        cases o with
        | none => simp [App.new, hv] at h
        | some e =>
          simp only [App.new, hv] at h
          have he : e = .NestedTypes t := by simpa using h
          subst he
          obtain ⟨r, hr, hm⟩ := validate_rest_nested first rest t hv
          obtain ⟨p, hp, fv, hg, hcomp⟩ := validate_map_nested first r t hm
          exact ⟨r, hr, p, hp, fv, hg, hcomp⟩

/-- C2 witness: the amended characterization applied to a concrete two-record
table whose second record has a composite value under the shared key, where
validation does return the nested-value error. -/
theorem nested_check_characterization_witness :
    App.new [[("a", Value.i64 1)], [("a", Value.map 0)]] =
        some (Except.error (.NestedTypes .Map)) ∧
      ∃ first rest,
        ([[("a", Value.i64 1)], [("a", Value.map 0)]] : List Rec) =
          first :: rest ∧
        ∃ r ∈ rest, ∃ p ∈ r, ∃ fv, getField first p.1 = some fv ∧
          ((fv.valueType = .Map ∨ fv.valueType = .Array) ∨
            (p.2.valueType = .Map ∨ p.2.valueType = .Array)) :=
  ⟨rfl, nested_check_characterization.2
    [[("a", Value.i64 1)], [("a", Value.map 0)]] .Map rfl⟩

/-- C10: validation accepts a table whose second record omits the field b that
is present in the first record — type checks cover only the fields actually
present in each later record, so construction establishes no shared-field-set
invariant. -/
theorem missing_field_accepted :
    App.new [[("a", Value.i64 1), ("b", Value.str "x")], [("a", Value.i64 2)]] =
      some (Except.ok
        { data := [[("a", Value.i64 1), ("b", Value.str "x")], [("a", Value.i64 2)]]
          keys := [("a", ValueType.I64), ("b", ValueType.String)]
          settings := Settings.default
          bars := [] }) := rfl

/-- C5 counterexample: with a non-empty group-key list and ByKey aggregation,
the aggregation hits todo!() and panics (embedded as none): no value — in
particular no UnsupportedAggregation error — is reported to the caller. -/
theorem bykey_panics_counterexample :
    make_bars [[("a", Value.i64 1)]]
      { bounds := [], x_axis := ["a"], y_axis := .Key "n", max_shown := 0 } = none := by
  decide

/-- C5 (amended): when the aggregation mode is ByKey(field) and the group-key
list is non-empty, make_bars panics via todo!() instead of returning; with an
empty group-key list it returns no bars before reaching the aggregation match.
It never behaves like Count and never reports an error value to the caller. -/
theorem bykey_amended (data : List Rec) (s : Settings) (f : String)
    (hy : s.y_axis = .Key f) :
    make_bars data s = if s.x_axis = [] then some [] else none := by
  by_cases hx : s.x_axis = [] <;> simp [make_bars, hx, hy]

/-- C5 witness: the amended theorem applied to a concrete table and settings. -/
theorem bykey_amended_witness :
    ({ bounds := [], x_axis := ["a"], y_axis := .Key "n", max_shown := 0 } :
        Settings).y_axis = .Key "n" ∧
      make_bars [[("a", Value.i64 1)]]
          { bounds := [], x_axis := ["a"], y_axis := .Key "n", max_shown := 0 } =
        if ({ bounds := [], x_axis := ["a"], y_axis := .Key "n", max_shown := 0 } :
            Settings).x_axis = [] then some [] else none :=
  ⟨rfl, bykey_amended _ _ "n" rfl⟩

/-- Helper for C3: make_bars never reads max_shown, so the embedded Ranker
cannot truncate by the display limit. -/
theorem make_bars_ignores_max_shown (data : List Rec) (s : Settings) (n : Nat) :
    make_bars data { s with max_shown := n } = make_bars data s := by
  cases s
  rfl

/-- C3 counterexample: a recompute that starts from an empty bar list and also
produces an empty bar list still overwrites max_shown (here from 5 to 0),
while the claim says the display limit is left unchanged in that case. -/
theorem display_limit_counterexample :
    rebuild_bars [] []
        { bounds := [], x_axis := [], y_axis := .Count, max_shown := 5 } =
      some ([], [],
        { bounds := [], x_axis := [], y_axis := .Count, max_shown := 0 }) ∧
      (0 : Nat) ≠ 5 :=
  ⟨rfl, by decide⟩

/-- C3 (amended): on a recompute, max_shown is set to the number of produced
groups whenever the previous bar list was empty — also when the new list is
empty, in which case it becomes 0 — and is left unchanged whenever the
previous list was non-empty; the bar construction itself never reads
max_shown, so it never truncates by the display limit. -/
theorem display_limit_amended (bars bars2 : List Bar) (data data2 : List Rec)
    (s s2 : Settings)
    (h : rebuild_bars bars data s = some (bars2, data2, s2)) :
    (bars = [] → s2 = { s with max_shown := bars2.length }) ∧
      (bars ≠ [] → s2 = s) ∧
      ∀ n, make_bars data2 { s with max_shown := n } = make_bars data2 s := by
  cases h1 : sort_arr data s with
  | none => simp [rebuild_bars, h1] at h
  | some d2 =>
    cases h2 : make_bars d2 s with
    | none => simp [rebuild_bars, h1, h2] at h
    | some b2 =>
      simp only [rebuild_bars, h1, h2, Option.some.injEq, Prod.mk.injEq] at h
      obtain ⟨hb2, hd2, hs2⟩ := h
      refine ⟨?_, ?_, fun n => make_bars_ignores_max_shown data2 s n⟩
      · intro hb
        subst hb
        simp only [List.isEmpty_nil, if_true] at hs2
        rw [← hs2, hb2]
      · intro hb
        have hne : bars.isEmpty = false := by
          cases bars with
          | nil => exact absurd rfl hb
          | cons x xs => rfl
        rw [hne] at hs2
        simpa using hs2.symm

/-- C3 witness: the amended theorem applied to the concrete empty-to-empty
recompute. -/
theorem display_limit_amended_witness :
    rebuild_bars [] []
        { bounds := [], x_axis := [], y_axis := .Count, max_shown := 5 } =
      some ([], [],
        { bounds := [], x_axis := [], y_axis := .Count, max_shown := 0 }) ∧
      ({ bounds := [], x_axis := [], y_axis := .Count, max_shown := 0 } : Settings) =
        { ({ bounds := [], x_axis := [], y_axis := .Count, max_shown := 5 } :
            Settings) with max_shown := ([] : List Bar).length } :=
  ⟨rfl, (display_limit_amended [] [] [] []
      { bounds := [], x_axis := [], y_axis := .Count, max_shown := 5 }
      { bounds := [], x_axis := [], y_axis := .Count, max_shown := 0 } rfl).1 rfl⟩

/-- C4: the pipeline (in-place sort, then aggregation, as run by rebuild_bars)
on the table [{cat:a,n:1},{cat:a,n:2},{cat:b,n:3}] with group keys [cat] and
no bounds produces exactly the bars (label a, count 2, rank 0) and (label b,
count 1, rank 1); each label is the comma-separated join, in group-key order,
of the canonical string forms of the group key values. -/
theorem end_to_end_example :
    rebuild_bars []
        [[("cat", Value.str "a"), ("n", Value.i64 1)],
         [("cat", Value.str "a"), ("n", Value.i64 2)],
         [("cat", Value.str "b"), ("n", Value.i64 3)]]
        { bounds := [], x_axis := ["cat"], y_axis := .Count, max_shown := 0 } =
      some ([{ argument := 0, value := 2, name := "a" },
             { argument := 1, value := 1, name := "b" }],
            [[("cat", Value.str "a"), ("n", Value.i64 1)],
             [("cat", Value.str "a"), ("n", Value.i64 2)],
             [("cat", Value.str "b"), ("n", Value.i64 3)]],
            { bounds := [], x_axis := ["cat"], y_axis := .Count, max_shown := 2 }) := by
  decide

/-- C7: a Range bound keeps values inside the half-open interval (false at the
start in particular), excludes the end value and everything below the start;
an Include Specifics bound excludes exactly the values outside its set and an
Exclude Specifics bound exactly the values inside it. -/
theorem bound_excludes_spec {α : Type} [LinearOrder α] (start stop v : α)
    (S : List α) :
    (start ≤ v → v < stop → (Bound.Range start stop).excludes v = false) ∧
      (Bound.Range start stop).excludes stop = true ∧
      (v < start → (Bound.Range start stop).excludes v = true) ∧
      ((Bound.Specifics .Include S).excludes v = true ↔ v ∉ S) ∧
      ((Bound.Specifics .Exclude S).excludes v = true ↔ v ∈ S) := by
  refine ⟨fun h1 h2 => ?_, ?_, fun h => ?_, ?_, ?_⟩
  · simp [Bound.excludes, h1, h2]
  · simp [Bound.excludes]
  · simp [Bound.excludes, not_le.mpr h]
  · simp [Bound.excludes]
  · simp [Bound.excludes]

/-- C7 witness: the bound semantics at concrete integer inputs. -/
theorem bound_excludes_spec_witness :
    (Bound.Range (0 : Int) 5).excludes 0 = false ∧
      (Bound.Range (0 : Int) 5).excludes 5 = true ∧
      (Bound.Range (0 : Int) 5).excludes (-1) = true ∧
      ((Bound.Specifics .Include [(3 : Int)]).excludes 0 = true ↔
        (0 : Int) ∉ [(3 : Int)]) ∧
      ((Bound.Specifics .Exclude [(3 : Int)]).excludes 0 = true ↔
        (0 : Int) ∈ [(3 : Int)]) :=
  ⟨(bound_excludes_spec 0 5 0 [3]).1 (by decide) (by decide),
    (bound_excludes_spec 0 5 0 [3]).2.1,
    (bound_excludes_spec 0 5 (-1) [3]).2.2.1 (by decide),
    (bound_excludes_spec 0 5 0 [3]).2.2.2.1,
    (bound_excludes_spec 0 5 0 [3]).2.2.2.2⟩

/-- The per-value exclusion condition exactly as claim C6 states it: the value
is Null (any configured bound excludes Null regardless of its kind), or the
value has the matching type for the bound and the bound excludes it (a Bool
bound excludes a mismatching boolean, a Str bound is a membership test). Byte
values satisfy no case. -/
def claimExcludes (v : Value) (b : ValueBound) : Prop :=
  v = .null ∨
    (∃ n bd, v = .i64 n ∧ b = .I64 bd ∧ bd.excludes n = true) ∨
    (∃ n bd, v = .u64 n ∧ b = .U64 bd ∧ bd.excludes n = true) ∨
    (∃ q bd, v = .float q ∧ b = .F64 bd ∧ bd.excludes q = true) ∨
    (∃ x y, v = .bool x ∧ b = .Bool y ∧ x ≠ y) ∨
    (∃ s inc vs, v = .str s ∧ b = .Str inc vs ∧
      ((inc = .Include ∧ s ∉ vs) ∨ (inc = .Exclude ∧ s ∈ vs)))

theorem bound_check_claim (v : Value) (b : ValueBound)
    (hs : (bound_check v b).isSome) :
    bound_check v b = some true ↔ claimExcludes v b := by
  cases v <;> cases b <;>
    first
    | (rename_i inc vs
       cases inc <;>
         simp_all [bound_check, claimExcludes, and_assoc, exists_eq_left'])
    | simp_all [bound_check, claimExcludes]

/-- C6: when every configured bound that applies to a field present in the row
is well-typed for that field value, the row filter evaluates without panicking
and excludes the row if and only if some configured bound names a field whose
value in the row is Null or is matching-typed and excluded by that bound;
byte values satisfy no case of that condition, so a bound configured on a
byte-sequence field never excludes a row. -/
theorem row_excluded_iff (bounds : List (String × ValueBound)) (r : Rec)
    (hw : ∀ p ∈ bounds, ∀ v, getField r p.1 = some v →
      (bound_check v p.2).isSome) :
    (row_excluded bounds r).isSome ∧
      (row_excluded bounds r = some true ↔
        ∃ p ∈ bounds, ∃ v, getField r p.1 = some v ∧ claimExcludes v p.2) := by
  induction bounds with
  | nil => simp [row_excluded]
  | cons pb rest ih =>
    obtain ⟨k, b⟩ := pb
    have hw_head := hw (k, b) (List.mem_cons_self _ _)
    have hw_rest : ∀ p ∈ rest, ∀ v, getField r p.1 = some v →
        (bound_check v p.2).isSome :=
      fun p hp => hw p (List.mem_cons_of_mem _ hp)
    obtain ⟨ihs, ihiff⟩ := ih hw_rest
    cases hg : getField r k with
    | none =>
      simp only [row_excluded, hg]
      refine ⟨ihs, ?_⟩
      rw [ihiff]
      constructor
      · rintro ⟨p, hp, hv⟩
        exact ⟨p, List.mem_cons_of_mem _ hp, hv⟩
      · rintro ⟨p, hp, v, hv, hc⟩
        rcases List.mem_cons.mp hp with heq | hmem
        · subst heq
          rw [hg] at hv
          cases hv
        · exact ⟨p, hmem, v, hv, hc⟩
    | some v =>
      have hbs := hw_head v hg
      cases hb : bound_check v b with
      | none =>
        rw [hb] at hbs
        simp at hbs
      | some bv =>
        cases bv with
        | true =>
          simp only [row_excluded, hg, hb]
          refine ⟨by simp, ?_, ?_⟩
          · intro _
            exact ⟨(k, b), List.mem_cons_self _ _, v, hg,
              (bound_check_claim v b hbs).mp hb⟩
          · intro _
            trivial
        | false =>
          simp only [row_excluded, hg, hb]
          refine ⟨ihs, ?_⟩
          rw [ihiff]
          constructor
          · rintro ⟨p, hp, hv⟩
            exact ⟨p, List.mem_cons_of_mem _ hp, hv⟩
          · rintro ⟨p, hp, v', hv', hc⟩
            rcases List.mem_cons.mp hp with heq | hmem
            · subst heq
              rw [hg] at hv'
              injection hv' with hvv
              subst hvv
              exact absurd ((bound_check_claim v b hbs).mpr hc) (by simp [hb])
            · exact ⟨p, hmem, v', hv', hc⟩

theorem cmpv_eq_lt [LinearOrder α] {a b : α} : cmpv a b = .lt ↔ a < b := by
  unfold cmpv
  split_ifs with h1 h2 <;> simp [h1]

theorem cmpv_eq_eq [LinearOrder α] {a b : α} : cmpv a b = .eq ↔ a = b := by
  unfold cmpv
  split_ifs with h1 h2
  · simp [ne_of_lt h1]
  · simp [h2]
  · simp [h2]

theorem cmpv_eq_gt [LinearOrder α] {a b : α} : cmpv a b = .gt ↔ b < a := by
  unfold cmpv
  split_ifs with h1 h2
  · simp [lt_asymm h1]
  · simp [h2]
  · exact ⟨fun _ => lt_of_le_of_ne (not_lt.mp h1) fun hba => h2 hba.symm,
      fun _ => rfl⟩

theorem cmpChars_total : ∀ a b : List Char, cmpChars a b ≠ .gt ∨ cmpChars b a ≠ .gt := by
  intro a
  induction a with
  | nil =>
    intro b
    cases b <;> simp [cmpChars]
  | cons x xs ih =>
    intro b
    cases b with
    | nil => simp [cmpChars]
    | cons y ys =>
      rcases lt_trichotomy x.toNat y.toNat with h | h | h
      · left
        simp [cmpChars, cmpv_eq_lt.mpr h]
      · simp only [cmpChars, cmpv_eq_eq.mpr h, cmpv_eq_eq.mpr h.symm]
        exact ih ys
      · right
        simp [cmpChars, cmpv_eq_lt.mpr h]

theorem cmpChars_trans : ∀ a b c : List Char, cmpChars a b ≠ .gt →
    cmpChars b c ≠ .gt → cmpChars a c ≠ .gt := by
  intro a
  induction a with
  | nil =>
    intro b c _ _
    cases c <;> simp [cmpChars]
  | cons x xs ih =>
    intro b c h1 h2
    cases b with
    | nil => simp [cmpChars] at h1
    | cons y ys =>
      cases c with
      | nil => simp [cmpChars] at h2
      | cons z zs =>
        rcases lt_trichotomy x.toNat y.toNat with hxy | hxy | hxy
        · rcases lt_trichotomy y.toNat z.toNat with hyz | hyz | hyz
          · simp [cmpChars, cmpv_eq_lt.mpr (lt_trans hxy hyz)]
          · simp [cmpChars, cmpv_eq_lt.mpr (hyz ▸ hxy)]
          · simp [cmpChars, cmpv_eq_gt.mpr hyz] at h2
        · rcases lt_trichotomy y.toNat z.toNat with hyz | hyz | hyz
          · simp [cmpChars, cmpv_eq_lt.mpr (hxy ▸ hyz)]
          · simp only [cmpChars, cmpv_eq_eq.mpr (hxy.trans hyz)]
            simp only [cmpChars, cmpv_eq_eq.mpr hxy] at h1
            simp only [cmpChars, cmpv_eq_eq.mpr hyz] at h2
            exact ih ys zs h1 h2
          · simp [cmpChars, cmpv_eq_gt.mpr hyz] at h2
        · simp [cmpChars, cmpv_eq_gt.mpr hxy] at h1

theorem getField_mem {r : Rec} {k : String} {v : Value}
    (h : getField r k = some v) : (k, v) ∈ r := by
  induction r with
  | nil => simp [getField] at h
  | cons p rest ih =>
    obtain ⟨k0, v0⟩ := p
    by_cases hk : k0 = k
    · subst hk
      have hv : v0 = v := by simpa [getField] using h
      subst hv
      exact List.mem_cons_self _ _
    · simp only [getField, if_neg hk] at h
      exact List.mem_cons_of_mem _ (ih h)

theorem validate_map_ok (first : Rec) :
    ∀ m : Rec,
      (∀ p ∈ m, ∃ fv, getField first p.1 = some fv ∧
        check_types p.1 fv.valueType p.2.valueType = none) →
      validate_map first m = some none := by
  intro m h
  induction m with
  | nil => rfl
  | cons p rest ih =>
    obtain ⟨fv, hg, hc⟩ := h p (List.mem_cons_self _ _)
    obtain ⟨k, v⟩ := p
    simp only [validate_map, hg, hc]
    exact ih fun q hq => h q (List.mem_cons_of_mem _ hq)

theorem validate_rest_ok (first : Rec) :
    ∀ rs : List Rec,
      (∀ r ∈ rs, validate_map first r = some none) →
      validate_rest first rs = some none := by
  intro rs h
  induction rs with
  | nil => rfl
  | cons m ms ih =>
    simp only [validate_rest, h m (List.mem_cons_self _ _)]
    exact ih fun r hr => h r (List.mem_cons_of_mem _ hr)

/-- C8: a non-empty table that is flat (no composite values), field-type
consistent (two non-Null values of the same field always have equal types) and
whose records share the field set of the first record (the Table shape of the
spec data model) validates successfully, and the schema is the first record
field list with its observed types, sorted by field name. -/
theorem validate_success (first : Rec) (rest : List Rec)
    (hshare : ∀ r ∈ rest, ∀ p ∈ r, (getField first p.1).isSome)
    (hflat : ∀ r ∈ first :: rest, ∀ p ∈ r,
      p.2.valueType ≠ .Map ∧ p.2.valueType ≠ .Array)
    (hcons : ∀ r₁ ∈ first :: rest, ∀ r₂ ∈ first :: rest, ∀ p₁ ∈ r₁, ∀ p₂ ∈ r₂,
      p₁.1 = p₂.1 → p₁.2.valueType ≠ .Null → p₂.2.valueType ≠ .Null →
      p₁.2.valueType = p₂.2.valueType) :
    ∃ a : App, App.new (first :: rest) = some (Except.ok a) ∧
      a.data = first :: rest ∧
      a.keys.Perm (first.map fun p => (p.1, p.2.valueType)) ∧
      a.keys.Sorted fun x y => cmpString x.1 y.1 ≠ .gt := by
  have hvr : validate_rest first rest = some none := by
    refine validate_rest_ok first rest fun r hr => validate_map_ok first r ?_
    intro p hp
    obtain ⟨fv, hg⟩ := Option.isSome_iff_exists.mp (hshare r hr p hp)
    refine ⟨fv, hg, ?_⟩
    have h1 := hflat first (List.mem_cons_self _ _) (p.1, fv) (getField_mem hg)
    have h2 := hflat r (List.mem_cons_of_mem _ hr) p hp
    simp only [check_types]
    rw [if_neg (by simp [h1.1, h1.2]), if_neg (by simp [h2.1, h2.2])]
    by_cases hn : fv.valueType = .Null ∨ p.2.valueType = .Null
    · rw [if_pos hn]
    · rw [if_neg hn]
      push_neg at hn
      have heq := hcons first (List.mem_cons_self _ _) r
        (List.mem_cons_of_mem _ hr) (p.1, fv) (getField_mem hg) p hp rfl
        hn.1 hn.2
      rw [if_neg (by simpa using heq)]
  refine ⟨{ data := first :: rest
            keys := (first.map fun p => (p.1, p.2.valueType)).insertionSort
              fun a b => cmpString a.1 b.1 ≠ .gt
            settings := Settings.default
            bars := [] }, ?_, rfl, ?_, ?_⟩
  · simp [App.new, hvr]
  · exact List.perm_insertionSort _ _
  · haveI : IsTotal (String × ValueType) fun x y => cmpString x.1 y.1 ≠ .gt :=
      ⟨fun x y => cmpChars_total x.1.data y.1.data⟩
    haveI : IsTrans (String × ValueType) fun x y => cmpString x.1 y.1 ≠ .gt :=
      ⟨fun x y z => cmpChars_trans x.1.data y.1.data z.1.data⟩
    exact List.sorted_insertionSort _ _

theorem filter_rows_eq (bounds : List (String × ValueBound)) :
    ∀ data : List Rec, (∀ r ∈ data, (row_excluded bounds r).isSome) →
      filter_rows bounds data =
        some (data.filter fun r => row_excluded bounds r == some false) := by
  intro data h
  induction data with
  | nil => rfl
  | cons r rest ih =>
    have hr := h r (List.mem_cons_self _ _)
    have ihr := ih fun x hx => h x (List.mem_cons_of_mem _ hx)
    cases hre : row_excluded bounds r with
    | none =>
      rw [hre] at hr
      simp at hr
    | some b =>
      cases b with
      | true => simp [filter_rows, hre, ihr, List.filter_cons]
      | false => simp [filter_rows, hre, ihr, List.filter_cons]

theorem key_values_isSome (r : Rec) :
    ∀ keys : List String, (∀ k ∈ keys, (getField r k).isSome) →
      ∃ vals, key_values keys r = some vals := by
  intro keys h
  induction keys with
  | nil => exact ⟨[], rfl⟩
  | cons k ks ih =>
    obtain ⟨v, hv⟩ := Option.isSome_iff_exists.mp (h k (List.mem_cons_self _ _))
    obtain ⟨vs, hvs⟩ := ih fun x hx => h x (List.mem_cons_of_mem _ hx)
    exact ⟨v :: vs, by simp [key_values, hv, hvs]⟩

theorem group_runs_aux_sum (keys : List String) :
    ∀ (l : List Rec) (vals : List Value) (count : Nat),
      (∀ r ∈ l, ∀ k ∈ keys, (getField r k).isSome) →
      ∃ gs, group_runs_aux keys vals count l = some gs ∧
        (gs.map Prod.snd).sum = count + l.length := by
  intro l
  induction l with
  | nil =>
    intro vals count _
    exact ⟨[(vals, count)], rfl, by simp⟩
  | cons r rest ih =>
    intro vals count h
    by_cases hm : matches_row keys vals r = true
    · obtain ⟨gs, hgs, hsum⟩ :=
        ih vals (count + 1) fun x hx => h x (List.mem_cons_of_mem _ hx)
      refine ⟨gs, ?_, ?_⟩
      · simp [group_runs_aux, hm, hgs]
      · rw [hsum]
        simp
        omega
    · obtain ⟨vals2, hv2⟩ := key_values_isSome r keys
        fun k hk => h r (List.mem_cons_self _ _) k hk
      obtain ⟨gs, hgs, hsum⟩ :=
        ih vals2 1 fun x hx => h x (List.mem_cons_of_mem _ hx)
      refine ⟨(vals, count) :: gs, ?_, ?_⟩
      · simp [group_runs_aux, hm, hv2, hgs]
      · simp [hsum]
        omega

theorem group_runs_sum (keys : List String) (l : List Rec)
    (h : ∀ r ∈ l, ∀ k ∈ keys, (getField r k).isSome) :
    ∃ gs, group_runs keys l = some gs ∧ (gs.map Prod.snd).sum = l.length := by
  cases l with
  | nil => exact ⟨[], rfl, rfl⟩
  | cons r rest =>
    obtain ⟨vals, hv⟩ := key_values_isSome r keys
      fun k hk => h r (List.mem_cons_self _ _) k hk
    obtain ⟨gs, hgs, hsum⟩ := group_runs_aux_sum keys rest vals 1
      fun x hx => h x (List.mem_cons_of_mem _ hx)
    refine ⟨gs, ?_, ?_⟩
    · simp [group_runs, hv, hgs]
    · rw [hsum]
      simp [Nat.add_comm]

theorem mk_count_bars_sum (runs : List (List Value × Nat)) :
    ((mk_count_bars runs).map Bar.value).sum = (runs.map Prod.snd).sum := by
  have h1 : (mk_count_bars runs).map Bar.value =
      (runs.enum.map Prod.snd).map Prod.snd := by
    simp only [mk_count_bars, List.map_map]
    rfl
  rw [h1, List.enum_map_snd]

theorem rank_bars_sum (bars : List Bar) :
    ((rank_bars bars).map Bar.value).sum = (bars.map Bar.value).sum := by
  have h1 : (rank_bars bars).map Bar.value =
      ((bars.insertionSort fun a b => a.value ≤ b.value).reverse.enum.map
        Prod.snd).map Bar.value := by
    simp only [rank_bars, List.map_map]
    rfl
  rw [h1, List.enum_map_snd, List.map_reverse, List.sum_reverse]
  exact (List.Perm.map Bar.value
    (List.perm_insertionSort (fun a b => a.value ≤ b.value) bars)).sum_eq

/-- C9: with Count aggregation, a non-empty group-key list, rows that contain
every group key and bounds typed so the filter evaluates, the sum of the
counts of all bars produced by make_bars equals the number of rows that pass
the bound filter — aggregation neither drops nor double-counts a filtered
row. -/
theorem count_sum_conservation (data : List Rec) (s : Settings)
    (hx : s.x_axis ≠ [])
    (hy : s.y_axis = YAxisKey.Count)
    (hb : ∀ r ∈ data, (row_excluded s.bounds r).isSome)
    (hk : ∀ r ∈ data, ∀ k ∈ s.x_axis, (getField r k).isSome) :
    ∃ bars, make_bars data s = some bars ∧
      (bars.map Bar.value).sum =
        (data.filter fun r => row_excluded s.bounds r == some false).length := by
  have hf := filter_rows_eq s.bounds data hb
  obtain ⟨gs, hgs, hsum⟩ := group_runs_sum s.x_axis
    (data.filter fun r => row_excluded s.bounds r == some false)
    fun r hr k hkk => hk r (List.mem_filter.mp hr).1 k hkk
  refine ⟨rank_bars (mk_count_bars gs), ?_, ?_⟩
  · simp [make_bars, hx, hy, hf, hgs]
  · rw [rank_bars_sum, mk_count_bars_sum, hsum]

/-- C9 witness: the conservation theorem at a concrete table with one bound
that keeps two of the three rows. -/
theorem count_sum_conservation_witness :
    ∃ bars,
      make_bars [[("k", Value.i64 1)], [("k", Value.i64 1)], [("k", Value.i64 2)]]
          { bounds := [("k", ValueBound.I64 (Bound.Range 0 2))], x_axis := ["k"],
            y_axis := .Count, max_shown := 0 } = some bars ∧
        (bars.map Bar.value).sum =
          (([[("k", Value.i64 1)], [("k", Value.i64 1)],
              [("k", Value.i64 2)]] : List Rec).filter fun r =>
            row_excluded [("k", ValueBound.I64 (Bound.Range 0 2))] r ==
              some false).length :=
  count_sum_conservation
    [[("k", Value.i64 1)], [("k", Value.i64 1)], [("k", Value.i64 2)]]
    { bounds := [("k", ValueBound.I64 (Bound.Range 0 2))], x_axis := ["k"],
      y_axis := .Count, max_shown := 0 }
    (by decide) rfl (by decide) (by decide)

/-- C6 witness: the row-exclusion characterization at a concrete row and a
concrete integer range bound that excludes the row value. -/
theorem row_excluded_iff_witness :
    (row_excluded [("n", ValueBound.I64 (Bound.Range 0 5))]
        [("n", Value.i64 7)]).isSome ∧
      (row_excluded [("n", ValueBound.I64 (Bound.Range 0 5))]
          [("n", Value.i64 7)] = some true ↔
        ∃ p ∈ [("n", ValueBound.I64 (Bound.Range 0 5))], ∃ v,
          getField [("n", Value.i64 7)] p.1 = some v ∧ claimExcludes v p.2) :=
  row_excluded_iff [("n", ValueBound.I64 (Bound.Range 0 5))]
    [("n", Value.i64 7)]
    (by
      intro p hp v hv
      simp only [List.mem_singleton] at hp
      subst hp
      simp only [getField, if_pos, Option.some.injEq] at hv
      subst hv
      rfl)

/-- C8 witness: the validation theorem at a concrete two-record table with a
shared field set, a Null wildcard and consistent types. -/
theorem validate_success_witness :
    ∃ a : App,
      App.new ([("b", Value.i64 1), ("a", Value.str "x")] ::
          [[("a", Value.str "y"), ("b", Value.null)]]) = some (Except.ok a) ∧
        a.data = [("b", Value.i64 1), ("a", Value.str "x")] ::
          [[("a", Value.str "y"), ("b", Value.null)]] ∧
        a.keys.Perm ([("b", Value.i64 1), ("a", Value.str "x")].map fun p =>
          (p.1, p.2.valueType)) ∧
        a.keys.Sorted fun x y => cmpString x.1 y.1 ≠ .gt :=
  validate_success [("b", Value.i64 1), ("a", Value.str "x")]
    [[("a", Value.str "y"), ("b", Value.null)]]
    (by decide) (by decide) (by decide)
